import Mathlib

/-
Verification of the rolling-window dashboard core.

Sources embedded here:
  * src/dashboard/app.py — penguin dashboard: a `deque(maxlen=5)` stored in a
    reactive value; `generate_reactive_data` appends one synthesized entry per
    invalidation tick and returns `(deque_snapshot, df, latest_data_entry)`;
    `plot_population_trend` runs `scipy.stats.linregress` over buffer indices.
  * src/app.py — stock variant: `reactive_calc_stock` synthesizes a single
    price/timestamp entry per tick, with no history storage.

Random draws are modelled as explicit inputs (`Draw`) constrained to the
support of the Python generator calls (`random.randint`, `random.uniform`
followed by `round`). Machine floats are modelled by ℚ; scipy results that
are NaN (or raised errors) are modelled by `none`.
-/

/-- One entry of the penguin dashboard deque: the dict built in
`generate_reactive_data` (src/dashboard/app.py lines 37–42). -/
structure Entry where
  penguin_population : ℤ
  food_availability : ℚ
  chick_count : ℤ
  timestamp : String
deriving DecidableEq, Repr

/-- The raw random draws consumed by one execution of
`generate_reactive_data`: the values produced by `random.randint(50, 1000)`,
`random.uniform(10, 100)` (before rounding), `random.randint(0, 200)`, and the
formatted wall-clock timestamp. -/
structure Draw where
  pop : ℤ
  foodRaw : ℚ
  chick : ℤ
  ts : String
deriving DecidableEq, Repr

/-- The support of the random calls in src/dashboard/app.py lines 31–33:
`randint(a, b)` is inclusive on both ends, and `uniform(a, b)` returns a value
in [a, b] (Python documents that the endpoint may be included). -/
def ValidDraw (d : Draw) : Prop :=
  50 ≤ d.pop ∧ d.pop ≤ 1000 ∧ 10 ≤ d.foodRaw ∧ d.foodRaw ≤ 100 ∧
    0 ≤ d.chick ∧ d.chick ≤ 200

instance : DecidablePred ValidDraw := fun d => by unfold ValidDraw; infer_instance

/-- Python's `round(x, 1)`: round to one decimal digit. (Python rounds exact
float ties to even while `round` here is ⌊x + 1/2⌋; the two agree except on
exact ties, which do not affect any range property proved below.) -/
def roundTo1 (q : ℚ) : ℚ := (round (10 * q) : ℤ) / 10

/-- Python's `round(x, 2)` used by the stock variant. -/
def roundTo2 (q : ℚ) : ℚ := (round (100 * q) : ℤ) / 100

/-- The dict `new_data_entry` built from one set of draws
(src/dashboard/app.py lines 31–42): `food_availability` is the uniform draw
rounded to one decimal. -/
def mkEntry (d : Draw) : Entry :=
  { penguin_population := d.pop
    food_availability := roundTo1 d.foodRaw
    chick_count := d.chick
    timestamp := d.ts }

/-- `DEQUE_SIZE: int = 5` (src/dashboard/app.py line 18). -/
def DEQUE_SIZE : ℕ := 5

/-- `UPDATE_INTERVAL_SECS: int = 3` (src/dashboard/app.py line 16). -/
def UPDATE_INTERVAL_SECS : ℕ := 3

/-- `collections.deque(maxlen=n).append x`: append on the right, discarding
from the left whenever the length would exceed `maxlen`. -/
def dequeAppend (maxlen : ℕ) (xs : List Entry) (x : Entry) : List Entry :=
  if maxlen < (xs ++ [x]).length then
    (xs ++ [x]).drop ((xs ++ [x]).length - maxlen)
  else xs ++ [x]

/-- The tuple cached by the reactive calc after one execution of
`generate_reactive_data`: `df` is the pandas DataFrame, a value copy of the
deque contents made at generation time (line 51), and `latest` is
`latest_data_entry` (line 54).  The remaining component of the Python tuple,
`deque_snapshot`, is the deque object itself — a heap reference, modelled
below by `snapshotDeref`, not by a stored value. -/
structure CalcCache where
  df : List Entry
  latest : Entry
deriving DecidableEq, Repr

/-- Mutable state of the dashboard: the contents of the one shared deque held
in `reactive_value_wrapper` (line 19), plus the reactive calc's cached return
tuple (none before the first execution). -/
structure AppState where
  buf : List Entry
  cache : Option CalcCache
deriving DecidableEq, Repr

/-- State at session start: deque empty, calc never executed. -/
def initState : AppState := { buf := [], cache := none }

/-- One invalidation-driven execution of `generate_reactive_data`
(src/dashboard/app.py lines 25–55): synthesize the entry from the draws,
append it to the deque (FIFO eviction via `maxlen`), build the DataFrame copy,
and cache the returned tuple.  This is the spec's `tick()`. -/
def generate_reactive_data (s : AppState) (d : Draw) : AppState :=
  let e := mkEntry d
  let buf := dequeAppend DEQUE_SIZE s.buf e
  { buf := buf, cache := some { df := buf, latest := e } }

/-- A consumer call to the calc between invalidations (the spec's
`snapshot()`): the reactive framework returns the cached tuple without
re-running the body. -/
def snapshotCalc (s : AppState) : Option CalcCache × AppState := (s.cache, s)

/-- Dereferencing the `deque_snapshot` component of any previously returned
tuple: it is the deque object itself (line 48 stores
`reactive_value_wrapper.get()`, no copy), so reading it at a later state
observes that state's buffer contents. -/
def snapshotDeref (s : AppState) : List Entry := s.buf

/-- Run a sequence of ticks from a state. -/
def runTicks (s : AppState) (ds : List Draw) : AppState :=
  ds.foldl generate_reactive_data s

-- ---------------------------------------------------------------------------
-- Basic deque lemmas
-- ---------------------------------------------------------------------------

theorem dequeAppend_length (maxlen : ℕ) (xs : List Entry) (x : Entry) :
    (dequeAppend maxlen xs x).length = min (xs.length + 1) maxlen := by
  unfold dequeAppend
  by_cases h : maxlen < (xs ++ [x]).length
  · rw [if_pos h, List.length_drop]
    simp only [List.length_append, List.length_singleton] at h ⊢
    omega
  · rw [if_neg h]
    simp only [List.length_append, List.length_singleton, not_lt] at h ⊢
    omega

theorem dequeAppend_getLast? (maxlen : ℕ) (hm : 1 ≤ maxlen) (xs : List Entry) (x : Entry) :
    (dequeAppend maxlen xs x).getLast? = some x := by
  unfold dequeAppend
  by_cases h : maxlen < (xs ++ [x]).length
  · rw [if_pos h]
    have hle : (xs ++ [x]).length - maxlen ≤ xs.length := by
      simp only [List.length_append, List.length_singleton]; omega
    rw [List.drop_append_of_le_length hle]
    exact List.getLast?_concat _
  · rw [if_neg h]
    exact List.getLast?_concat _

/-- Folding deque appends over a whole input list keeps exactly the last
`maxlen` inputs, in order. -/
theorem foldl_dequeAppend (maxlen : ℕ) (es : List Entry) :
    es.foldl (dequeAppend maxlen) [] = es.drop (es.length - maxlen) := by
  induction es using List.reverseRecOn with
  | nil => simp
  | append_singleton es e ih =>
    rw [List.foldl_append, List.foldl_cons, List.foldl_nil, ih]
    by_cases h : maxlen ≤ es.length
    · by_cases hm : 1 ≤ maxlen
      · have hlen : (es.drop (es.length - maxlen)).length = maxlen := by
          rw [List.length_drop]; omega
        have hcond : maxlen < ((es.drop (es.length - maxlen)) ++ [e]).length := by
          simp only [List.length_append, List.length_singleton, hlen]; omega
        have hamt : ((es.drop (es.length - maxlen)) ++ [e]).length - maxlen = 1 := by
          simp only [List.length_append, List.length_singleton, hlen]; omega
        have hL : dequeAppend maxlen (es.drop (es.length - maxlen)) e
            = es.drop (es.length + 1 - maxlen) ++ [e] := by
          unfold dequeAppend
          rw [if_pos hcond, hamt,
            List.drop_append_of_le_length (by rw [hlen]; omega), List.drop_drop]
          have hnum : es.length - maxlen + 1 = es.length + 1 - maxlen := by omega
          rw [hnum]
        have hR : (es ++ [e]).drop ((es ++ [e]).length - maxlen)
            = es.drop (es.length + 1 - maxlen) ++ [e] := by
          have hamt2 : (es ++ [e]).length - maxlen = es.length + 1 - maxlen := by
            simp only [List.length_append, List.length_singleton]
          rw [hamt2, List.drop_append_of_le_length (by omega)]
        rw [hL, hR]
      · have h0 : maxlen = 0 := by omega
        subst h0
        unfold dequeAppend
        simp [List.drop_length]
    · push_neg at h
      have h1 : es.length - maxlen = 0 := by omega
      rw [h1, List.drop_zero]
      unfold dequeAppend
      have hc : ¬ maxlen < (es ++ [e]).length := by
        simp only [List.length_append, List.length_singleton, not_lt]; omega
      rw [if_neg hc]
      have h2 : (es ++ [e]).length - maxlen = 0 := by
        simp only [List.length_append, List.length_singleton]; omega
      rw [h2, List.drop_zero]

/-- Every element of the deque after an append was already in the deque or is
the appended element. -/
theorem dequeAppend_subset (maxlen : ℕ) (xs : List Entry) (x : Entry) :
    dequeAppend maxlen xs x ⊆ xs ++ [x] := by
  unfold dequeAppend
  split
  · exact List.drop_subset _ _
  · exact fun a ha => ha

-- ---------------------------------------------------------------------------
-- Runs of ticks
-- ---------------------------------------------------------------------------

theorem runTicks_buf_fold (s : AppState) (ds : List Draw) :
    (runTicks s ds).buf = (ds.map mkEntry).foldl (dequeAppend DEQUE_SIZE) s.buf := by
  induction ds generalizing s with
  | nil => rfl
  | cons d ds ih => exact ih (generate_reactive_data s d)

/-- From the empty initial deque, a run of ticks leaves exactly the entries of
the trailing window of draws, in order. -/
theorem runTicks_buf (ds : List Draw) :
    (runTicks initState ds).buf = (ds.drop (ds.length - DEQUE_SIZE)).map mkEntry := by
  rw [runTicks_buf_fold, show initState.buf = [] from rfl, foldl_dequeAppend,
    List.length_map, ← List.map_drop]

theorem runTicks_cache_df (s : AppState) (ds : List Draw) :
    ds ≠ [] → ∃ e, (runTicks s ds).cache
      = some { df := (runTicks s ds).buf, latest := e } := by
  induction ds generalizing s with
  | nil => intro h; exact absurd rfl h
  | cons d ds ih =>
    intro _
    by_cases h : ds = []
    · subst h; exact ⟨mkEntry d, rfl⟩
    · exact ih (generate_reactive_data s d) h

/-- Every entry in the buffer after a run originates from the starting buffer
or from one of the input draws. -/
theorem mem_runTicks_buf (ds : List Draw) (s : AppState) (e : Entry)
    (he : e ∈ (runTicks s ds).buf) : e ∈ s.buf ∨ ∃ d ∈ ds, e = mkEntry d := by
  induction ds generalizing s with
  | nil => exact Or.inl he
  | cons d ds ih =>
    rcases ih (generate_reactive_data s d) he with h | h
    · have hsub : e ∈ s.buf ++ [mkEntry d] :=
        dequeAppend_subset DEQUE_SIZE s.buf (mkEntry d) h
      rcases List.mem_append.mp hsub with h' | h'
      · exact Or.inl h'
      · exact Or.inr ⟨d, List.mem_cons_self d ds, by simpa using h'⟩
    · obtain ⟨d', hd', he'⟩ := h
      exact Or.inr ⟨d', List.mem_cons_of_mem d hd', he'⟩

-- ---------------------------------------------------------------------------
-- Regression (scipy.stats.linregress) over buffer indices
-- ---------------------------------------------------------------------------

/-- `numpy.mean`. -/
def mean (xs : List ℚ) : ℚ := xs.sum / xs.length

/-- scipy's `ssxm`: the biased variance of x, entry (0,0) of
`np.cov(x, y, bias=1)`. -/
def ssxmOf (xs : List ℚ) : ℚ :=
  ((xs.map (fun x => (x - mean xs) ^ 2)).sum) / xs.length

/-- scipy's `ssxym`: the biased covariance of x and y, entry (0,1) of
`np.cov(x, y, bias=1)`. -/
def ssxymOf (xs ys : List ℚ) : ℚ :=
  (((xs.zip ys).map (fun p => (p.1 - mean xs) * (p.2 - mean ys))).sum) / xs.length

/-- scipy's `slope = ssxym / ssxm`. -/
def slopeOf (xs ys : List ℚ) : ℚ := ssxymOf xs ys / ssxmOf xs

/-- scipy's `intercept = ymean - slope * xmean`. -/
def interceptOf (xs ys : List ℚ) : ℚ :=
  mean ys - slopeOf xs ys * mean xs

/-- `scipy.stats.linregress(x, y)` restricted to the returned
(slope, intercept) pair.  `none` models the cases where the float code yields
no finite regression: empty inputs (scipy raises ValueError), and zero
x-variance, where scipy either raises (all x identical, n > 1) or computes
slope = 0/0 = NaN and intercept = NaN (n = 1). -/
def linregress (xs ys : List ℚ) : Option (ℚ × ℚ) :=
  if xs.length = 0 then none
  else if ssxmOf xs = 0 then none
  else some (slopeOf xs ys, interceptOf xs ys)

/-- `x_vals = list(range(len(df)))` (src/dashboard/app.py lines 145–146). -/
def xIndices (n : ℕ) : List ℚ := (List.range n).map (fun i => (Nat.cast i : ℚ))

/-- The regression performed by `plot_population_trend`: the selected field's
values against their buffer indices 0..length-1 (lines 145–150). -/
def trendOf (ys : List ℚ) : Option (ℚ × ℚ) := linregress (xIndices ys.length) ys

/-- `best_fit_line = [slope * x + intercept for x in x_vals]` (line 151). -/
def best_fit_line (slope intercept : ℚ) (n : ℕ) : List ℚ :=
  (xIndices n).map (fun x => slope * x + intercept)

/-- The ordinary-least-squares objective, written from the spec's words: the
sum of squared residuals of the field values against the line `s * i + b`
over buffer indices `i`. -/
def sse (ys : List ℚ) (s b : ℚ) : ℚ :=
  ∑ i in Finset.range ys.length, (ys.getD i 0 - (s * i + b)) ^ 2

-- ---------------------------------------------------------------------------
-- The chart render (plot_population_trend)
-- ---------------------------------------------------------------------------

/-- What the chart render can fail with: `return fig` on line 171 executes
with `fig` never assigned whenever the `if not df.empty` guard on line 132 was
not taken, which in Python raises UnboundLocalError. -/
inductive PlotErr where
  | unboundLocalFig
deriving DecidableEq, Repr

/-- The data carried by the figure built in `plot_population_trend`: the
scattered population values and the regression outcome used for the trend
line (`none` when the float regression is NaN). -/
structure TrendFig where
  points : List ℚ
  reg : Option (ℚ × ℚ)
deriving DecidableEq, Repr

/-- `plot_population_trend` (src/dashboard/app.py lines 126–171) reduced to
its data flow: on a non-empty frame it scatters the population values and
computes the index regression; on an empty frame the body is skipped and the
trailing `return fig` fails because `fig` was never assigned. -/
def plot_population_trend (rows : List Entry) : Except PlotErr TrendFig :=
  if rows.isEmpty then Except.error PlotErr.unboundLocalFig
  else
    Except.ok
      { points := rows.map (fun e => (e.penguin_population : ℚ))
        reg := linregress (xIndices rows.length)
          (rows.map (fun e => (e.penguin_population : ℚ))) }

-- ---------------------------------------------------------------------------
-- The stock variant (src/app.py)
-- ---------------------------------------------------------------------------

/-- One entry of the stock variant: the dict built in `reactive_calc_stock`
(src/app.py line 62). -/
structure StockEntry where
  price : ℚ
  timestamp : String
deriving DecidableEq, Repr

/-- One execution of `reactive_calc_stock` (src/app.py lines 50–65): round
the uniform draw from [100, 150] to two decimals, stamp the time, return the
dict.  Nothing is stored. -/
def reactive_calc_stock (priceRaw : ℚ) (ts : String) : StockEntry :=
  { price := roundTo2 priceRaw, timestamp := ts }

/-- The stock variant's whole mutable state: the reactive calc's cached
latest entry.  src/app.py declares no deque or other container (its comment
on lines 27–29 states storage is avoided), so nothing but the latest entry
survives a tick. -/
def stock_tick (_s : Option StockEntry) (p : ℚ) (ts : String) : Option StockEntry :=
  some (reactive_calc_stock p ts)

/-- A run of stock ticks from a state. -/
def runStock (s : Option StockEntry) (ps : List (ℚ × String)) : Option StockEntry :=
  ps.foldl (fun st pt => stock_tick st pt.1 pt.2) s

-- ---------------------------------------------------------------------------
-- Concrete scenario data
-- ---------------------------------------------------------------------------

/-- A deterministic draw carrying a chosen population value and fixed values
for the remaining fields (the mock generator of the spec's scenario). -/
def popDraw (k : ℤ) : Draw := { pop := k, foodRaw := 10, chick := 0, ts := "" }

def drawsFive : List Draw :=
  [popDraw 1, popDraw 2, popDraw 3, popDraw 4, popDraw 5]

def drawsSeven : List Draw :=
  [popDraw 1, popDraw 2, popDraw 3, popDraw 4, popDraw 5, popDraw 6, popDraw 7]

-- ---------------------------------------------------------------------------
-- List sums as indexed sums
-- ---------------------------------------------------------------------------

theorem list_sum_getD (ys : List ℚ) :
    ys.sum = ∑ i in Finset.range ys.length, ys.getD i 0 := by
  induction ys with
  | nil => simp
  | cons a t ih =>
    rw [List.sum_cons, List.length_cons, Finset.sum_range_succ']
    simp only [List.getD_cons_succ, List.getD_cons_zero]
    rw [ih]; ring

theorem list_map_sum_getD (f : ℚ → ℚ) (ys : List ℚ) :
    (ys.map f).sum = ∑ i in Finset.range ys.length, f (ys.getD i 0) := by
  induction ys with
  | nil => simp
  | cons a t ih =>
    rw [List.map_cons, List.sum_cons, List.length_cons, Finset.sum_range_succ']
    simp only [List.getD_cons_succ, List.getD_cons_zero]
    rw [ih]; ring

theorem list_zip_map_sum_getD (c d : ℚ) (xs ys : List ℚ) :
    ((xs.zip ys).map (fun p => (p.1 - c) * (p.2 - d))).sum
      = ∑ i in Finset.range (min xs.length ys.length),
          (xs.getD i 0 - c) * (ys.getD i 0 - d) := by
  induction xs generalizing ys with
  | nil => simp
  | cons a t ih =>
    cases ys with
    | nil => simp
    | cons b u =>
      rw [List.zip_cons_cons, List.map_cons, List.sum_cons, List.length_cons,
        List.length_cons]
      have hmin : min (t.length + 1) (u.length + 1) = min t.length u.length + 1 := by
        omega
      rw [hmin, Finset.sum_range_succ']
      simp only [List.getD_cons_succ, List.getD_cons_zero]
      rw [ih u]; ring

theorem xIndices_length (n : ℕ) : (xIndices n).length = n := by
  unfold xIndices
  rw [List.length_map, List.length_range]

theorem xIndices_getD (n i : ℕ) (h : i < n) : (xIndices n).getD i 0 = (i : ℚ) := by
  unfold xIndices
  have hlen : i < ((List.range n).map (fun j => (Nat.cast j : ℚ))).length := by
    rw [List.length_map, List.length_range]; exact h
  rw [List.getD_eq_getElem _ _ hlen]
  simp only [List.getElem_map, List.getElem_range]

theorem best_fit_line_getD (s b : ℚ) (n i : ℕ) (h : i < n) :
    (best_fit_line s b n).getD i 0 = s * i + b := by
  unfold best_fit_line xIndices
  have hlen : i < (((List.range n).map (fun j => (Nat.cast j : ℚ))).map
      (fun x => s * x + b)).length := by
    rw [List.length_map, List.length_map, List.length_range]; exact h
  rw [List.getD_eq_getElem _ _ hlen]
  simp only [List.getElem_map, List.getElem_range]

-- ---------------------------------------------------------------------------
-- Rounded uniform draws stay in range
-- ---------------------------------------------------------------------------

theorem roundTo1_range (u : ℚ) (h1 : 10 ≤ u) (h2 : u ≤ 100) :
    10 ≤ roundTo1 u ∧ roundTo1 u ≤ 100 := by
  unfold roundTo1
  rw [round_eq]
  have hlo : (100 : ℤ) ≤ ⌊10 * u + 1 / 2⌋ := by
    rw [Int.le_floor]; push_cast; linarith
  have hhi : ⌊10 * u + 1 / 2⌋ ≤ (1000 : ℤ) := by
    have h := Int.floor_lt.mpr (show 10 * u + 1 / 2 < ((1001 : ℤ) : ℚ) by
      push_cast; linarith)
    omega
  constructor
  · rw [le_div_iff₀ (by norm_num : (0 : ℚ) < 10)]
    calc (10 : ℚ) * 10 = ((100 : ℤ) : ℚ) := by norm_num
    _ ≤ _ := by exact_mod_cast hlo
  · rw [div_le_iff₀ (by norm_num : (0 : ℚ) < 10)]
    calc ((⌊10 * u + 1 / 2⌋ : ℤ) : ℚ) ≤ ((1000 : ℤ) : ℚ) := by exact_mod_cast hhi
    _ = 100 * 10 := by norm_num

theorem roundTo2_range (u : ℚ) (h1 : 100 ≤ u) (h2 : u ≤ 150) :
    100 ≤ roundTo2 u ∧ roundTo2 u ≤ 150 := by
  unfold roundTo2
  rw [round_eq]
  have hlo : (10000 : ℤ) ≤ ⌊100 * u + 1 / 2⌋ := by
    rw [Int.le_floor]; push_cast; linarith
  have hhi : ⌊100 * u + 1 / 2⌋ ≤ (15000 : ℤ) := by
    have h := Int.floor_lt.mpr (show 100 * u + 1 / 2 < ((15001 : ℤ) : ℚ) by
      push_cast; linarith)
    omega
  constructor
  · rw [le_div_iff₀ (by norm_num : (0 : ℚ) < 100)]
    calc (100 : ℚ) * 100 = ((10000 : ℤ) : ℚ) := by norm_num
    _ ≤ _ := by exact_mod_cast hlo
  · rw [div_le_iff₀ (by norm_num : (0 : ℚ) < 100)]
    calc ((⌊100 * u + 1 / 2⌋ : ℤ) : ℚ) ≤ ((15000 : ℤ) : ℚ) := by exact_mod_cast hhi
    _ = 150 * 100 := by norm_num

/-- The generated fields lie in the configured ranges (inclusive). -/
def EntryInRange (e : Entry) : Prop :=
  50 ≤ e.penguin_population ∧ e.penguin_population ≤ 1000 ∧
  10 ≤ e.food_availability ∧ e.food_availability ≤ 100 ∧
  0 ≤ e.chick_count ∧ e.chick_count ≤ 200

-- ---------------------------------------------------------------------------
-- OLS optimality of the scipy formulas over indices
-- ---------------------------------------------------------------------------

/-- A line satisfying the two normal equations minimizes the sum of squared
residuals. -/
theorem ols_normal_min (n : ℕ) (y : ℕ → ℚ) (s b : ℚ)
    (hE1 : ∑ i in Finset.range n, (y i - (s * i + b)) = 0)
    (hE2 : ∑ i in Finset.range n, (i : ℚ) * (y i - (s * i + b)) = 0)
    (s' b' : ℚ) :
    ∑ i in Finset.range n, (y i - (s * i + b)) ^ 2
      ≤ ∑ i in Finset.range n, (y i - (s' * i + b')) ^ 2 := by
  have hkey : ∑ i in Finset.range n, (y i - (s' * i + b')) ^ 2
      = ∑ i in Finset.range n, (y i - (s * i + b)) ^ 2
        + (2 * (s - s') * (∑ i in Finset.range n, (i : ℚ) * (y i - (s * i + b)))
           + 2 * (b - b') * (∑ i in Finset.range n, (y i - (s * i + b)))
           + ∑ i in Finset.range n, ((s - s') * i + (b - b')) ^ 2) := by
    rw [Finset.mul_sum, Finset.mul_sum, ← Finset.sum_add_distrib,
      ← Finset.sum_add_distrib, ← Finset.sum_add_distrib]
    apply Finset.sum_congr rfl
    intro i _
    ring
  rw [hkey, hE1, hE2]
  have hnn : 0 ≤ ∑ i in Finset.range n, ((s - s') * i + (b - b')) ^ 2 :=
    Finset.sum_nonneg fun i _ => sq_nonneg _
  linarith

/-- The regression `plot_population_trend` performs on a buffer of at least
two values returns the scipy slope/intercept, and that pair minimizes the
sum of squared residuals over all lines. -/
theorem trend_ols_core (ys : List ℚ) (hlen : 2 ≤ ys.length) :
    trendOf ys = some (slopeOf (xIndices ys.length) ys,
        interceptOf (xIndices ys.length) ys)
    ∧ ∀ s' b' : ℚ,
        sse ys (slopeOf (xIndices ys.length) ys)
            (interceptOf (xIndices ys.length) ys)
          ≤ sse ys s' b' := by
  set n := ys.length with hn_def
  set xm := mean (xIndices n) with hxm_def
  set ym := mean ys with hym_def
  set s := slopeOf (xIndices n) ys with hs_def
  set b := interceptOf (xIndices n) ys with hb_def0
  have hn0 : ((n : ℕ) : ℚ) ≠ 0 := by
    have : 0 < n := by omega
    exact_mod_cast this.ne'
  -- the means as indexed sums
  have hym_sum : ym = (∑ i in Finset.range n, ys.getD i 0) / n := by
    rw [hym_def]; simp only [mean]; rw [list_sum_getD, ← hn_def]
  have hxm_sum : xm = (∑ i in Finset.range n, (i : ℚ)) / n := by
    rw [hxm_def]; simp only [mean]
    rw [list_sum_getD, xIndices_length]
    congr 1
    apply Finset.sum_congr rfl
    intro i hi
    exact xIndices_getD n i (Finset.mem_range.mp hi)
  have hSy : ∑ i in Finset.range n, ys.getD i 0 = n * ym := by
    rw [hym_sum]; field_simp
  have hSx : ∑ i in Finset.range n, (i : ℚ) = n * xm := by
    rw [hxm_sum]; field_simp
  -- ssxm and ssxym as indexed sums of centered terms
  have hssxm : ssxmOf (xIndices n) = (∑ i in Finset.range n, ((i : ℚ) - xm) ^ 2) / n := by
    simp only [ssxmOf]
    rw [list_map_sum_getD, xIndices_length, ← hxm_def]
    congr 1
    apply Finset.sum_congr rfl
    intro i hi
    rw [xIndices_getD n i (Finset.mem_range.mp hi)]
  have hssxym : ssxymOf (xIndices n) ys
      = (∑ i in Finset.range n, ((i : ℚ) - xm) * (ys.getD i 0 - ym)) / n := by
    simp only [ssxymOf]
    rw [list_zip_map_sum_getD, xIndices_length, ← hn_def, min_self, ← hxm_def, ← hym_def]
    congr 1
    apply Finset.sum_congr rfl
    intro i hi
    rw [xIndices_getD n i (Finset.mem_range.mp hi)]
  -- positivity of the x-variance for n ≥ 2
  have hT_pos : 0 < ∑ i in Finset.range n, ((i : ℚ) - xm) ^ 2 := by
    apply Finset.sum_pos'
    · intro i _; exact sq_nonneg _
    · by_cases hxm0 : xm = 0
      · refine ⟨1, Finset.mem_range.mpr (by omega), ?_⟩
        rw [hxm0]; norm_num
      · refine ⟨0, Finset.mem_range.mpr (by omega), ?_⟩
        have hne : ((0 : ℕ) : ℚ) - xm ≠ 0 := by
          rw [Nat.cast_zero, zero_sub, neg_ne_zero]
          exact hxm0
        have := pow_ne_zero 2 hne
        have hge := sq_nonneg (((0 : ℕ) : ℚ) - xm)
        exact lt_of_le_of_ne hge (Ne.symm this)
  have hssxm_ne : ssxmOf (xIndices n) ≠ 0 := by
    rw [hssxm]
    exact div_ne_zero hT_pos.ne' hn0
  -- the returned pair
  have htrend : trendOf ys = some (s, b) := by
    rw [trendOf, ← hn_def]
    rw [linregress]
    rw [if_neg (by rw [xIndices_length]; omega), if_neg hssxm_ne]
  -- symbolic pieces
  have hs_mul : s * ssxmOf (xIndices n) = ssxymOf (xIndices n) ys := by
    rw [hs_def]
    simp only [slopeOf]
    exact div_mul_cancel₀ _ hssxm_ne
  have hb_def : b = ym - s * xm := by
    rw [hb_def0]
    simp only [interceptOf]
  -- uncentered second moments
  have hT_eq : ∑ i in Finset.range n, ((i : ℚ) - xm) ^ 2 = n * ssxmOf (xIndices n) := by
    rw [hssxm]; field_simp
  have hU_eq : ∑ i in Finset.range n, ((i : ℚ) - xm) * (ys.getD i 0 - ym)
      = n * ssxymOf (xIndices n) ys := by
    rw [hssxym]; field_simp
  have hTexp : ∑ i in Finset.range n, ((i : ℚ) - xm) ^ 2
      = (∑ i in Finset.range n, (i : ℚ) ^ 2) - 2 * xm * (∑ i in Finset.range n, (i : ℚ))
        + n * xm ^ 2 := by
    have hpt : ∀ i ∈ Finset.range n,
        ((i : ℚ) - xm) ^ 2 = (i : ℚ) ^ 2 - 2 * xm * (i : ℚ) + xm ^ 2 := by
      intro i _; ring
    rw [Finset.sum_congr rfl hpt, Finset.sum_add_distrib, Finset.sum_sub_distrib,
      ← Finset.mul_sum, Finset.sum_const, Finset.card_range, nsmul_eq_mul]
  have hUexp : ∑ i in Finset.range n, ((i : ℚ) - xm) * (ys.getD i 0 - ym)
      = (∑ i in Finset.range n, (i : ℚ) * ys.getD i 0)
        - xm * (∑ i in Finset.range n, ys.getD i 0)
        - ym * (∑ i in Finset.range n, (i : ℚ)) + n * (xm * ym) := by
    have hpt : ∀ i ∈ Finset.range n,
        ((i : ℚ) - xm) * (ys.getD i 0 - ym)
          = (i : ℚ) * ys.getD i 0 - xm * ys.getD i 0 - ym * (i : ℚ) + xm * ym := by
      intro i _; ring
    rw [Finset.sum_congr rfl hpt, Finset.sum_add_distrib, Finset.sum_sub_distrib,
      Finset.sum_sub_distrib, ← Finset.mul_sum, ← Finset.mul_sum, Finset.sum_const,
      Finset.card_range, nsmul_eq_mul]
  have hSxx : ∑ i in Finset.range n, (i : ℚ) ^ 2
      = n * ssxmOf (xIndices n) + n * xm ^ 2 := by
    linear_combination hT_eq - hTexp + 2 * xm * hSx
  have hSxy : ∑ i in Finset.range n, (i : ℚ) * ys.getD i 0
      = n * ssxymOf (xIndices n) ys + n * (xm * ym) := by
    linear_combination hU_eq - hUexp + xm * hSy + ym * hSx
  -- the normal equations
  have hE1 : ∑ i in Finset.range n, (ys.getD i 0 - (s * i + b)) = 0 := by
    have hexp : ∑ i in Finset.range n, (ys.getD i 0 - (s * i + b))
        = (∑ i in Finset.range n, ys.getD i 0) - s * (∑ i in Finset.range n, (i : ℚ))
          - n * b := by
      rw [Finset.sum_sub_distrib, Finset.sum_add_distrib, Finset.sum_const,
        Finset.card_range, nsmul_eq_mul, ← Finset.mul_sum]
      ring
    rw [hexp, hSy, hSx, hb_def]
    ring
  have hE2 : ∑ i in Finset.range n, (i : ℚ) * (ys.getD i 0 - (s * i + b)) = 0 := by
    have hexp : ∑ i in Finset.range n, (i : ℚ) * (ys.getD i 0 - (s * i + b))
        = (∑ i in Finset.range n, (i : ℚ) * ys.getD i 0)
          - s * (∑ i in Finset.range n, (i : ℚ) ^ 2)
          - b * (∑ i in Finset.range n, (i : ℚ)) := by
      have hpt : ∀ i ∈ Finset.range n,
          (i : ℚ) * (ys.getD i 0 - (s * i + b))
            = (i : ℚ) * ys.getD i 0 - s * (i : ℚ) ^ 2 - b * (i : ℚ) := by
        intro i _; ring
      rw [Finset.sum_congr rfl hpt, Finset.sum_sub_distrib, Finset.sum_sub_distrib,
        ← Finset.mul_sum, ← Finset.mul_sum]
    rw [hexp, hSxy, hSxx, hSx, hb_def]
    linear_combination (-(n : ℚ)) * hs_mul
  refine ⟨htrend, ?_⟩
  intro s' b'
  simp only [sse, ← hn_def]
  exact ols_normal_min n (fun i => ys.getD i 0) s b hE1 hE2 s' b'

-- ---------------------------------------------------------------------------
-- Claim theorems (first group)
-- ---------------------------------------------------------------------------

/-- C2: for every sequence of ticks, the length of the buffer (both the deque
itself and the DataFrame handed out by snapshot) equals
min(number_of_ticks, N) with N = 5; in particular it never exceeds N. -/
theorem c2_bounded_length (ds : List Draw) :
    (runTicks initState ds).buf.length = min ds.length DEQUE_SIZE ∧
    ((runTicks initState ds).cache.map fun c => c.df.length)
      = (if ds = [] then none else some (min ds.length DEQUE_SIZE)) := by
  have hbuf : (runTicks initState ds).buf.length = min ds.length DEQUE_SIZE := by
    rw [runTicks_buf, List.length_map, List.length_drop]
    omega
  refine ⟨hbuf, ?_⟩
  by_cases h : ds = []
  · subst h; rfl
  · rw [if_neg h]
    obtain ⟨e, hc⟩ := runTicks_cache_df initState ds h
    rw [hc, Option.map_some']
    rw [← hbuf]

/-- C6: reading the calc between ticks mutates nothing, triggers no
generation, and two consecutive reads with no intervening tick return the
same value. -/
theorem c6_snapshot_pure (s : AppState) :
    (snapshotCalc s).2 = s ∧
    (snapshotCalc s).2.buf = s.buf ∧
    (snapshotCalc s).1 = (snapshotCalc (snapshotCalc s).2).1 :=
  ⟨rfl, rfl, rfl⟩

/-- C7: after every tick, the cached snapshot's `latest` is the entry the
tick just appended, and that entry is the last element of the snapshot's
buffer (the DataFrame is the buffer at generation time, and the deque's last
element is the appended entry). -/
theorem c7_latest_agrees (s : AppState) (d : Draw) :
    (snapshotCalc (generate_reactive_data s d)).1
      = some { df := (generate_reactive_data s d).buf, latest := mkEntry d } ∧
    (generate_reactive_data s d).buf.getLast? = some (mkEntry d) := by
  refine ⟨rfl, ?_⟩
  exact dequeAppend_getLast? DEQUE_SIZE (by decide) s.buf (mkEntry d)

/-- C10: the stock variant retains no history — a run's observable state is
exactly the entry synthesized by the last tick, whatever state the run
started from, and is empty before any tick. -/
theorem c10_stock_no_history :
    (∀ (s : Option StockEntry) (ps : List (ℚ × String)) (p : ℚ) (ts : String),
        runStock s (ps ++ [(p, ts)]) = some (reactive_calc_stock p ts))
    ∧ runStock none [] = none := by
  refine ⟨?_, rfl⟩
  intro s ps p ts
  unfold runStock
  rw [List.foldl_append]
  rfl

/-- C5 (code behaviour at the failing input): rendering the trend chart with
an empty history buffer does not raise a recoverable EmptyHistory error — the
`if not df.empty` guard skips the body, and the trailing `return fig`
fails with `fig` unassigned (UnboundLocalError), a fatal error of the render
function. -/
theorem c5_empty_buffer_render_crashes :
    plot_population_trend [] = Except.error PlotErr.unboundLocalFig := rfl

/-- C9 counterexample: the deque handed out as `deque_snapshot` is a live
reference, not a copy — after a subsequent tick, reading through a
previously returned snapshot observes changed contents (here: the buffer
after five ticks, re-read after a sixth tick). -/
theorem c9_snapshot_alias_counterexample :
    snapshotDeref (generate_reactive_data (runTicks initState drawsFive) (popDraw 6))
      ≠ snapshotDeref (runTicks initState drawsFive) := by decide

/-- C9 amended: the deque component of the snapshot aliases the owned deque —
dereferencing it after a further tick observes exactly the mutated (evicted
and appended) buffer — while the DataFrame component is a copy fixed at
generation time. -/
theorem c9_snapshot_alias_amended (s : AppState) (d : Draw) :
    snapshotDeref (generate_reactive_data s d)
      = dequeAppend DEQUE_SIZE (snapshotDeref s) (mkEntry d) ∧
    (generate_reactive_data s d).cache
      = some { df := (generate_reactive_data s d).buf, latest := mkEntry d } :=
  ⟨rfl, rfl⟩

/-- C1: FIFO eviction law — after more than N = 5 ticks the buffer holds
exactly the entries of the 5 most recent draws in generation order; in the
7-tick scenario with population values 1..7 the final buffer carries the
values [3, 4, 5, 6, 7] and the trend over them has slope 1 (intercept 3). -/
theorem c1_fifo_eviction :
    (∀ ds : List Draw, DEQUE_SIZE < ds.length →
        (runTicks initState ds).buf = (ds.drop (ds.length - DEQUE_SIZE)).map mkEntry)
    ∧ (runTicks initState drawsSeven).buf.map
        (fun e => (Int.cast e.penguin_population : ℚ)) = [3, 4, 5, 6, 7]
    ∧ trendOf ((runTicks initState drawsSeven).buf.map
        (fun e => (Int.cast e.penguin_population : ℚ))) = some (1, 3) := by
  have hbuf : (runTicks initState drawsSeven).buf.map
      (fun e => (Int.cast e.penguin_population : ℚ)) = [3, 4, 5, 6, 7] := by
    rw [runTicks_buf]
    have hdrop : drawsSeven.drop (drawsSeven.length - DEQUE_SIZE)
        = [popDraw 3, popDraw 4, popDraw 5, popDraw 6, popDraw 7] := rfl
    rw [hdrop]
    norm_num [mkEntry, popDraw]
  refine ⟨fun ds _ => runTicks_buf ds, hbuf, ?_⟩
  rw [hbuf]
  norm_num [trendOf, linregress, ssxmOf, ssxymOf, slopeOf, interceptOf, mean,
    xIndices, List.range_succ]

/-- C1 witness: the FIFO law applied to the concrete 7-tick scenario. -/
theorem c1_fifo_eviction_witness :
    (runTicks initState drawsSeven).buf
      = (drawsSeven.drop (drawsSeven.length - DEQUE_SIZE)).map mkEntry :=
  c1_fifo_eviction.1 drawsSeven (by decide)

/-- C3 counterexample: a non-empty buffer (one element) on which the code
returns no slope/intercept at all — the float regression is NaN there,
modelled as `none` — so the claim's universal statement over all non-empty
buffers fails. -/
theorem c3_single_element_counterexample :
    ([(10 : ℚ)] ≠ ([] : List ℚ)) ∧ trendOf [10] = none := by
  refine ⟨by simp, ?_⟩
  norm_num [trendOf, linregress, ssxmOf, mean, xIndices, List.range_succ]

/-- C3 (amended): on every buffer of at least two values, the regression
returns the scipy slope/intercept pair, the fitted value at index i is
slope * i + intercept, and the returned pair minimizes the sum of squared
residuals over all lines (exact OLS); on the fixed buffer [10, 12, 14] it
returns exactly slope 2, intercept 10. -/
theorem c3_trend_ols :
    (∀ ys : List ℚ, 2 ≤ ys.length →
        ∃ sb : ℚ × ℚ, trendOf ys = some sb
          ∧ (∀ i : ℕ, i < ys.length →
              (best_fit_line sb.1 sb.2 ys.length).getD i 0 = sb.1 * i + sb.2)
          ∧ (∀ s' b' : ℚ, sse ys sb.1 sb.2 ≤ sse ys s' b'))
    ∧ trendOf [10, 12, 14] = some (2, 10) := by
  constructor
  · intro ys h
    obtain ⟨h1, h2⟩ := trend_ols_core ys h
    exact ⟨(slopeOf (xIndices ys.length) ys, interceptOf (xIndices ys.length) ys),
      h1, fun i hi => best_fit_line_getD _ _ _ _ hi, h2⟩
  · norm_num [trendOf, linregress, ssxmOf, ssxymOf, slopeOf, interceptOf, mean,
      xIndices, List.range_succ]

/-- C3 witness: the amended OLS statement applied to the buffer [10, 12, 14]. -/
theorem c3_trend_ols_witness :
    ∃ sb : ℚ × ℚ, trendOf [10, 12, 14] = some sb
      ∧ (∀ i : ℕ, i < ([10, 12, 14] : List ℚ).length →
          (best_fit_line sb.1 sb.2 ([10, 12, 14] : List ℚ).length).getD i 0
            = sb.1 * i + sb.2)
      ∧ (∀ s' b' : ℚ, sse [10, 12, 14] sb.1 sb.2 ≤ sse [10, 12, 14] s' b') :=
  c3_trend_ols.1 [10, 12, 14] (by decide)

/-- C4 counterexample: on the single-element buffer [7] the code does not
return slope 0 and intercept 7 — the regression result is `none` (the float
code computes slope = 0/0 = NaN). -/
theorem c4_single_counterexample :
    trendOf [7] ≠ some (0, 7) ∧ trendOf [7] = none := by
  have h : trendOf [7] = none := by
    norm_num [trendOf, linregress, ssxmOf, mean, xIndices, List.range_succ]
  exact ⟨by rw [h]; exact fun hc => Option.noConfusion hc, h⟩

/-- C4 (amended): for every buffer holding exactly one value, the x-variance
denominator is zero and the regression yields an undefined (NaN) result,
modelled `none` — not slope 0 with intercept equal to the value. -/
theorem c4_single_element_nan (v : ℚ) : trendOf [v] = none := by
  norm_num [trendOf, linregress, ssxmOf, mean, xIndices, List.range_succ]

/-- C8: every entry ever present in the buffer of a run over draws from the
generator's support has all fields inside the configured inclusive ranges,
and the stock variant's rounded price stays inside [100, 150]. -/
theorem c8_range_invariant :
    (∀ ds : List Draw, (∀ d ∈ ds, ValidDraw d) →
        ∀ e ∈ (runTicks initState ds).buf, EntryInRange e)
    ∧ (∀ (p : ℚ) (ts : String), 100 ≤ p → p ≤ 150 →
        100 ≤ (reactive_calc_stock p ts).price
          ∧ (reactive_calc_stock p ts).price ≤ 150) := by
  constructor
  · intro ds hds e he
    rcases mem_runTicks_buf ds initState e he with h | ⟨d, hd, rfl⟩
    · simp [initState] at h
    · obtain ⟨h1, h2, h3, h4, h5, h6⟩ := hds d hd
      obtain ⟨hf1, hf2⟩ := roundTo1_range d.foodRaw h3 h4
      exact ⟨h1, h2, hf1, hf2, h5, h6⟩
  · intro p ts hp1 hp2
    exact roundTo2_range p hp1 hp2

/-- C8 witness: the range invariant applied to a one-tick run over a valid
draw, and to the stock variant at price draw 120. -/
theorem c8_range_invariant_witness :
    EntryInRange (mkEntry (popDraw 60))
    ∧ (100 ≤ (reactive_calc_stock 120 "").price
       ∧ (reactive_calc_stock 120 "").price ≤ 150) := by
  constructor
  · exact c8_range_invariant.1 [popDraw 60] (by decide) (mkEntry (popDraw 60))
      (List.mem_singleton_self _)
  · exact c8_range_invariant.2 120 "" (by norm_num) (by norm_num)
